import Mathlib

/-!
Verification of the Truffaldino synchronization engine.

This file gives a shallow embedding of the core synchronization logic of the
repository (src/sync.py, src/sync/sync-manager.py, src/sync/sync-manager-v2.py)
and proves or refutes the frozen claims about it.

Python dictionaries mapping server names to configurations are modelled as
association lists with insertion order, `List (String × ServerConfig)`;
Python dict-update semantics (replace in place on an existing key, append on a
fresh key) is modelled by `dictInsert`.  Machine I/O (file reads and writes,
subprocess calls) is made explicit: loaders take the parse outcome as a
parameter, savers return the event trace or the written value, and Python
exceptions become `Except` results.

The file is organised as definitions first (the embedding), then theorems.
-/

set_option autoImplicit false

namespace Truffaldino

/-! # Part 1: the embedding -/

/-- One MCP server entry, as stored under a name in an "mcpServers" mapping:
command, ordered argument list, environment mapping, optional working
directory (src/sync.py uses raw dicts with these keys). The `env` list stands
for a Python dict, so its keys are unique in any state produced by the code. -/
structure ServerConfig where
  command : String
  args : List String
  env : List (String × String)
  cwd : Option String
  deriving DecidableEq, Repr

/-- An application's entry collection: a Python dict from server name to
configuration, in insertion order. -/
abbrev Coll := List (String × ServerConfig)

/-- Python dict lookup (`d[k]` / `k in d`): first binding of the key wins.
In states produced by the code keys are unique, so there is only one. -/
def pyLookup {β : Type} (k : String) : List (String × β) → Option β
  | [] => none
  | (k', v) :: rest => if k' = k then some v else pyLookup k rest

/-- Python dict assignment `d[k] = v`: replace in place if the key is present,
append otherwise. -/
def dictInsert {β : Type} (d : List (String × β)) (k : String) (v : β) :
    List (String × β) :=
  if (pyLookup k d).isSome then
    d.map (fun p => if p.1 = k then (k, v) else p)
  else d ++ [(k, v)]

/-- Python `{**d, **u}` (and `d.update(u)`): insert every binding of `u` into
`d`, in order. -/
def dictUpdate {β : Type} (d u : List (String × β)) : List (String × β) :=
  u.foldl (fun acc p => dictInsert acc p.1 p.2) d

/-- Keys of an association list. -/
def keysOf {β : Type} (d : List (String × β)) : List String := d.map Prod.fst

/-! ## Python value equality on configurations

Configurations in the Python source are raw dicts; `==` on them compares the
environment sub-dict as a mapping (order-insensitive) and the argument list
element-wise in order.  `envMapEq` is Python dict equality on the `env` field
and `configEq` is Python `==` on two configuration dicts. -/

/-- Python dict equality on environment mappings: same keys, same values. -/
def envMapEq (e1 e2 : List (String × String)) : Bool :=
  e1.all (fun p => pyLookup p.1 e2 = some p.2) &&
  e2.all (fun p => pyLookup p.1 e1 = some p.2)

/-- Python `==` on two configuration dicts. -/
def configEq (c1 c2 : ServerConfig) : Bool :=
  c1.command == c2.command && c1.args == c2.args &&
  envMapEq c1.env c2.env && c1.cwd == c2.cwd

/-! ## The synchronization engine (src/sync.py, class SyncEngine)

`SyncEngine.sync_mcp_servers` loads the source collection, fails if it is
`None` or empty, loads the target collection defaulting `None` to `{}`,
merges under the selected mode, and hands the merged collection to
`ConfigManager.save_mcp_config` (which first calls `create_backup`).
The two `load_mcp_config` results are passed in as parameters, the
interactive input read inside `_smart_merge` is passed in as a
`SmartChoice`, and the result records the returned Boolean, whether the
save (and hence the backup step inside it) was reached, and the collection
handed to the save. -/

/-- The three sync modes of `SyncEngine.sync_mcp_servers`. -/
inductive SyncMode where
  | replace
  | merge
  | smart
  deriving DecidableEq, Repr

/-- The interactive answer consumed by `SyncEngine._smart_merge` when
conflicts are found: choice "1" (or any other input) keeps the target,
choice "2" overwrites every conflict with the source, choice "3" asks
per conflict (modelled by the per-name answer function). -/
inductive SmartChoice where
  | keepTarget
  | useSource
  | review (useSrc : String → Bool)

/-- First loop of `SyncEngine._smart_merge`: walk the source items, record a
conflict when the name exists in the target with different content, and add
entries whose name is absent from the target to `merged` (which starts as
`target.copy()`). -/
def smartMergeLoop (target : Coll) :
    List (String × ServerConfig) → Coll → List String → Coll × List String
  | [], merged, conflicts => (merged, conflicts)
  | (n, c) :: rest, merged, conflicts =>
    match pyLookup n target with
    | some tc =>
      if configEq c tc then smartMergeLoop target rest merged conflicts
      else smartMergeLoop target rest merged (conflicts ++ [n])
    | none => smartMergeLoop target rest (dictInsert merged n c) conflicts

/-- `SyncEngine._smart_merge` up to the interactive part: the merged
collection before conflict resolution and the conflict list. -/
def smartMergeBase (source target : Coll) : Coll × List String :=
  smartMergeLoop target source target []

/-- `SyncEngine._smart_merge`: after the first loop, if conflicts were found
the interactive choice decides which conflicting names are overwritten with
their source value (`merged[name] = source[name]`; a conflicting name is
always a source key, so the `none` fallback is unreachable). -/
def smartMerge (source target : Coll) (choice : SmartChoice) : Coll :=
  let mc := smartMergeBase source target
  if mc.2.isEmpty then mc.1
  else
    match choice with
    | .keepTarget => mc.1
    | .useSource =>
      mc.2.foldl (fun m n =>
        match pyLookup n source with
        | some c => dictInsert m n c
        | none => m) mc.1
    | .review useSrc =>
      mc.2.foldl (fun m n =>
        if useSrc n then
          match pyLookup n source with
          | some c => dictInsert m n c
          | none => m
        else m) mc.1

/-- The per-item conflict decision of the first `_smart_merge` loop, used to
state what the conflict list contains. -/
def conflictOf (target : Coll) (p : String × ServerConfig) : Option String :=
  match pyLookup p.1 target with
  | some tc => if configEq p.2 tc then none else some p.1
  | none => none

/-- Result of one `SyncEngine.sync_mcp_servers` call: the returned Boolean,
whether `save_mcp_config` (which begins by calling `create_backup`) was
invoked, and the collection handed to it. -/
structure SyncResult where
  ok : Bool
  saveReached : Bool
  written : Option Coll
  deriving DecidableEq, Repr

/-- `SyncEngine.sync_mcp_servers` with the two load results and the
interactive input as parameters; `saveOk` is the Boolean returned by
`ConfigManager.save_mcp_config`. -/
def sync_mcp_servers (sourceLoad targetLoad : Option Coll) (mode : SyncMode)
    (choice : SmartChoice) (saveOk : Bool) : SyncResult :=
  match sourceLoad with
  | none => ⟨false, false, none⟩
  | some source =>
    if source.isEmpty then ⟨false, false, none⟩
    else
      let target := targetLoad.getD []
      let merged :=
        match mode with
        | .replace => source
        | .merge => dictUpdate target source
        | .smart => smartMerge source target choice
      ⟨saveOk, true, some merged⟩

/-! ## Loading a configuration document (ConfigManager.load_mcp_config)

For file-backed applications `load_mcp_config` returns `None` when the file
is missing, returns `None` when `json.load` raises (the exception is caught
and logged), and otherwise returns `config.get("mcpServers", {})`. -/

/-- A parsed top-level configuration document: its optional "mcpServers" key
(other top-level keys do not influence loading). -/
structure ConfigDoc where
  mcpServers : Option Coll
  deriving Repr

/-- The three outcomes of opening and parsing a configuration file. -/
inductive LoadOutcome where
  | missing
  | parseFailure
  | parsed (doc : ConfigDoc)

/-- `ConfigManager.load_mcp_config` (file-backed branch): missing file and
parse failure both yield `None`; otherwise the "mcpServers" sub-object,
defaulting to `{}`. -/
def load_mcp_config : LoadOutcome → Option Coll
  | .missing => none
  | .parseFailure => none
  | .parsed doc => some (doc.mcpServers.getD [])

/-! ## The V2 merge loop (src/sync/sync-manager-v2.py)

`SyncManagerV2.sync_mcp_servers` with mode "merge" adds each source entry to
the target only when its name is not already present. -/

/-- Mode "merge" of `SyncManagerV2.sync_mcp_servers`: add the source entries
whose name is absent; the membership test runs against the updated dict. -/
def syncMergeV2 (source target : Coll) : Coll :=
  source.foldl
    (fun acc p => if (pyLookup p.1 acc).isSome then acc else dictInsert acc p.1 p.2)
    target

/-! ## Backup and save ordering (ConfigManager.save_mcp_config,
ConfigManager.save_prompt, ConfigManager.create_backup)

`save_mcp_config` calls `create_backup` before any write.  `create_backup`
(file-backed branch) copies the config file when it exists; the copy is not
wrapped in any `try`, so a copy error propagates as an exception, and
`save_mcp_config` does not guard the `create_backup` call either.
`save_prompt` writes the prompt file directly and contains no backup step.
File-system effects are recorded as an event trace; a raised exception is an
`Except.error` carrying no further events. -/

/-- A file-system effect of a mutating operation. -/
inductive FsEvent where
  | backup
  | write
  deriving DecidableEq, Repr

/-- `ConfigManager.create_backup`, file-backed branch: copy the config file
into the versions directory when it exists.  `copyOk` is the outcome of
`shutil.copy2`; there is no exception handler, so a copy error escapes. -/
def create_backup_run (configExists copyOk : Bool) : Except String (List FsEvent) :=
  if configExists then
    if copyOk then .ok [.backup] else .error "copy failed"
  else .ok []

/-- `ConfigManager.save_mcp_config`: `create_backup` runs first, unguarded;
only if it returns does the configuration get written. -/
def save_mcp_config_run (configExists copyOk : Bool) : Except String (List FsEvent) :=
  match create_backup_run configExists copyOk with
  | .error e => .error e
  | .ok evs => .ok (evs ++ [.write])

/-- `ConfigManager.save_prompt`, file-backed branch: the prompt file is
written directly; the function contains no backup step, whether or not the
prompt file already exists. -/
def save_prompt_run (_promptExists : Bool) : List FsEvent := [.write]

/-- Scan a trace keeping track of whether a backup has been seen; true iff
every write is preceded by an earlier backup. -/
def coveredFrom (seenBackup : Bool) : List FsEvent → Bool
  | [] => true
  | .backup :: rest => coveredFrom true rest
  | .write :: rest => seenBackup && coveredFrom seenBackup rest

/-- Every write in the trace is preceded by a backup. -/
def backupPrecedesWrites (evs : List FsEvent) : Bool := coveredFrom false evs

/-- Whether a save operation performed its write (an escaped exception means
it did not). -/
def saveProceeded : Except String (List FsEvent) → Bool
  | .ok evs => evs.contains .write
  | .error _ => false

/-! ## Environment-variable expansion (src/sync/sync-manager.py)

`SyncManager.load_master_config` parses the YAML master document and calls
`_expand_env_vars` on it.  That helper walks dicts and lists recursively; it
substitutes only a dict value that is a string of the exact shape
"[dollar][brace]VAR[brace]" (`value.startswith("${") and
value.endswith("}")`), taking `os.environ.get(env_var, value)` so an unset
variable leaves the text in place.  The process environment is passed in as
a function. -/

/-- A YAML document value as produced by `yaml.safe_load`: a string, a
mapping, a sequence, or any non-string non-container scalar. -/
inductive YamlVal where
  | str (s : String)
  | dict (entries : List (String × YamlVal))
  | list (items : List YamlVal)
  | scalar

/-- The test `value.startswith("${") and value.endswith("}")`, on the
character sequence of the string. -/
def isWholePlaceholder (s : String) : Bool :=
  List.isPrefixOf "$\x7b".toList s.toList &&
  List.isSuffixOf "\x7d".toList s.toList

/-- `value[2:-1]`: the variable name between the braces. -/
def placeholderVar (s : String) : String :=
  String.mk ((s.toList.drop 2).dropLast)

mutual

/-- `SyncManager._expand_env_vars`: inside a mapping, a string value that is
entirely a placeholder is replaced by `os.environ.get(var, value)`; every
other value recurses.  A bare string reached outside a mapping value (for
example inside a list) matches neither `isinstance` branch of the recursive
call and is left unchanged. -/
def expandEnvVars (env : String → Option String) : YamlVal → YamlVal
  | .str s => .str s
  | .scalar => .scalar
  | .dict entries => .dict (expandDict env entries)
  | .list items => .list (expandList env items)

/-- The dict branch of `_expand_env_vars`: the whole-string-placeholder test
applies to string values; other values recurse. -/
def expandDict (env : String → Option String) :
    List (String × YamlVal) → List (String × YamlVal)
  | [] => []
  | (k, .str s) :: rest =>
    (if isWholePlaceholder s then (k, YamlVal.str ((env (placeholderVar s)).getD s))
     else (k, expandEnvVars env (.str s))) :: expandDict env rest
  | (k, v) :: rest => (k, expandEnvVars env v) :: expandDict env rest

/-- The list branch of `_expand_env_vars`: recurse into each item. -/
def expandList (env : String → Option String) : List YamlVal → List YamlVal
  | [] => []
  | v :: rest => expandEnvVars env v :: expandList env rest

end

/-! ## Duplicate detection in the external-tool adapter (src/sync.py,
ConfigManager._find_duplicates, _server_exists_in_target,
_save_claude_code_config) -/

/-- Python `set(a) == set(b)` on argument lists: order- and
multiplicity-insensitive equality. -/
def argsSetEq (a b : List String) : Bool :=
  a.all (fun x => b.contains x) && b.all (fun x => a.contains x)

/-- The identity comparison used by `_find_duplicates` and
`_server_exists_in_target`: command equal, argument sets equal, environment
dicts equal (the name and the working directory take no part). -/
def identEq (c1 c2 : ServerConfig) : Bool :=
  c1.command == c2.command && argsSetEq c1.args c2.args && envMapEq c1.env c2.env

/-- Inner scan of `_find_duplicates`: the first existing entry whose identity
matches the new configuration (the Python loop breaks at the first hit). -/
def firstIdentMatch (cfg : ServerConfig) : Coll → Option String
  | [] => none
  | (n, c) :: rest => if identEq cfg c then some n else firstIdentMatch cfg rest

/-- One iteration of the `_find_duplicates` outer loop: a name already in the
existing dict wins (and is recorded under the new name, which equals it);
otherwise the first identity match is recorded. -/
def dupOf (existing : Coll) (p : String × ServerConfig) : Option String :=
  if (pyLookup p.1 existing).isSome then some p.1
  else firstIdentMatch p.2 existing

/-- `ConfigManager._find_duplicates`: the appended results of the per-entry
scan over the new servers. -/
def find_duplicates (existing newServers : Coll) : List String :=
  newServers.filterMap (dupOf existing)

/-- `ConfigManager._server_exists_in_target`: a server scheduled for removal
is treated as absent; otherwise present by name or by identity against the
existing entries not scheduled for removal. -/
def server_exists_in_target (name : String) (cfg : ServerConfig)
    (existing : Coll) (dups : List String) : Bool :=
  if dups.contains name then false
  else if (pyLookup name existing).isSome then true
  else existing.any (fun p => !(dups.contains p.1) && identEq cfg p.2)

/-- The server names present after `_save_claude_code_config` when every CLI
call succeeds: the existing names minus the scheduled duplicates, then each
new server appended unless `_server_exists_in_target` holds for it or its
arguments carry the unsupported "-m" flag (which makes the code skip it). -/
def save_claude_code_names (existing newServers : Coll) : List String :=
  let dups := find_duplicates existing newServers
  newServers.foldl
    (fun acc p =>
      if server_exists_in_target p.1 p.2 existing dups then acc
      else if p.2.args.contains "-m" then acc
      else acc ++ [p.1])
    ((keysOf existing).filter (fun n => !(dups.contains n)))

/-! ## Argument cleaning in the external-tool adapter (src/sync.py,
ConfigManager._clean_args)

`_clean_args` joins the argument list with spaces, performs Python
`str.replace` of the substring "-y" and then of "--with fastmcp" (plain
non-overlapping left-to-right substring replacement, not token removal),
rejoins the whitespace-split result with single spaces, and returns the
final split (or `[]` when nothing but whitespace remains).  Strings are
modelled as character lists. -/

/-- Python `str.replace(pat, rep)`: scan left to right, replacing
non-overlapping occurrences of a nonempty pattern.  The fuel argument only
makes the recursion structural; every step consumes at least one character,
so `s.length` fuel always suffices (see `strReplace`). -/
def strReplaceFuel (pat rep : List Char) : Nat → List Char → List Char
  | 0, s => s
  | _ + 1, [] => []
  | fuel + 1, c :: rest =>
    if pat ≠ [] ∧ pat.isPrefixOf (c :: rest) then
      rep ++ strReplaceFuel pat rep fuel (rest.drop (pat.length - 1))
    else c :: strReplaceFuel pat rep fuel rest

/-- Python `str.replace(pat, rep)` on character sequences. -/
def strReplace (pat rep s : List Char) : List Char :=
  strReplaceFuel pat rep s.length s

/-- Whether `pat` occurs as a contiguous subsequence (Python `pat in s`). -/
def occursIn (pat : List Char) : List Char → Bool
  | [] => pat.isPrefixOf []
  | c :: rest => pat.isPrefixOf (c :: rest) || occursIn pat rest

/-- Helper of `splitWS`: accumulate the current token (reversed) while
scanning. -/
def splitWSAux : List Char → List Char → List (List Char)
  | cur, [] => if cur.isEmpty then [] else [cur.reverse]
  | cur, c :: rest =>
    if c.isWhitespace then
      if cur.isEmpty then splitWSAux [] rest
      else cur.reverse :: splitWSAux [] rest
    else splitWSAux (c :: cur) rest

/-- Python `str.split()`: split on whitespace runs, dropping empty pieces. -/
def splitWS (s : List Char) : List (List Char) := splitWSAux [] s

/-- Python `" ".join(...)` on character sequences. -/
def joinSpace : List (List Char) → List Char
  | [] => []
  | [t] => t
  | t :: rest => t ++ ' ' :: joinSpace rest

/-- `ConfigManager._clean_args`: join with spaces, delete every occurrence
of the substring "-y", then of "--with fastmcp", normalise whitespace by a
split-and-rejoin, and split (Python returns `[]` when the result has no
non-whitespace character, which for a join of split tokens means it is
empty). -/
def clean_args (args : List (List Char)) : List (List Char) :=
  if args.isEmpty then []
  else
    let s1 := joinSpace args
    let s2 := strReplace ("-y".toList) [] s1
    let s3 := strReplace ("--with fastmcp".toList) [] s2
    let s4 := joinSpace (splitWS s3)
    if s4.isEmpty then [] else splitWS s4

/-! ## The backup store (src/sync.py, ConfigManager.create_backup and
ConfigManager._cleanup_old_backups)

Backup files live in one versions directory.  A backup filename embeds the
owning app id and a second-resolution timestamp
(app_id underscore timestamp ext); files are modelled by those name
components plus the modification time.  `_cleanup_old_backups` globs the
files of one owner — for the application registry of src/config.py no app
id followed by an underscore prefixes another app's filenames, so the glob
selects exactly the files with that owner — sorts them by modification time
newest first (Python `sorted` with `reverse=True`, a stable merge sort) and
unlinks every file beyond the tenth. -/

/-- `MAX_VERSIONS_PER_APP` (src/config.py). -/
def MAX_VERSIONS_PER_APP : Nat := 10

/-- A file in the versions directory: the owner id and timestamp embedded in
its name, the extension, and its modification time. -/
structure BackupFile where
  owner : String
  stamp : Nat
  ext : String
  mtime : Nat
  deriving DecidableEq, Repr

/-- The glob of `_cleanup_old_backups`: the files whose name carries this
owner. -/
def backupMatches (appId : String) (f : BackupFile) : Bool := f.owner == appId

/-- The sort key of `_cleanup_old_backups`: modification time, newest
first. -/
def mtimeDesc (a b : BackupFile) : Bool := b.mtime ≤ a.mtime

/-- `ConfigManager._cleanup_old_backups`: list the owner's backups, sort by
modification time descending, and unlink every file beyond the tenth. -/
def cleanup_old_backups (appId : String) (files : List BackupFile) :
    List BackupFile :=
  let backups := (files.filter (backupMatches appId)).mergeSort mtimeDesc
  let toRemove := backups.drop MAX_VERSIONS_PER_APP
  files.filter (fun f => decide (f ∉ toRemove))

/-- `ConfigManager.create_backup` (file-backed branch) acting on the
versions directory: write the copy — named by the owner and the current
second, overwriting an identically named file — with the current time as
its modification time, then prune.  `now` is both the embedded timestamp
and the copy's modification time. -/
def create_backup_fs (appId ext : String) (now : Nat)
    (files : List BackupFile) : List BackupFile :=
  let f : BackupFile := ⟨appId, now, ext, now⟩
  let files' :=
    if files.any (fun g => g.owner == appId && g.stamp == now && g.ext == ext)
    then files.map (fun g =>
      if g.owner == appId && g.stamp == now && g.ext == ext then f else g)
    else files ++ [f]
  cleanup_old_backups appId files'

/-- Sequential backups for one app id starting from a directory state, one
per timestamp. -/
def backupSeq (appId ext : String) (stamps : List Nat)
    (files : List BackupFile) : List BackupFile :=
  stamps.foldl (fun fs s => create_backup_fs appId ext s fs) files

/-- The number of backups matching an app id in the directory. -/
def countMatching (appId : String) (files : List BackupFile) : Nat :=
  (files.filter (backupMatches appId)).length

/-- The backup file written for an app id at a timestamp. -/
def mkBackup (appId ext : String) (s : Nat) : BackupFile := ⟨appId, s, ext, s⟩

/-! # Part 2: theorems -/

/-! ## Association-list facts used throughout -/

theorem pyLookup_append {β : Type} (k : String) (d e : List (String × β)) :
    pyLookup k (d ++ e) =
      match pyLookup k d with
      | some v => some v
      | none => pyLookup k e := by
  induction d with
  | nil => simp [pyLookup]
  | cons p rest ih =>
    obtain ⟨k', v⟩ := p
    by_cases h : k' = k <;> simp [pyLookup, h, ih]

theorem pyLookup_mapReplace {β : Type} (d : List (String × β)) (k k' : String)
    (v : β) :
    pyLookup k' (d.map (fun p => if p.1 = k then (k, v) else p)) =
      (pyLookup k' d).map (fun w => if k' = k then v else w) := by
  induction d with
  | nil => simp [pyLookup]
  | cons p rest ih =>
    obtain ⟨k₀, w⟩ := p
    simp only [List.map_cons]
    by_cases hk : k₀ = k
    · rw [if_pos hk]
      subst hk
      by_cases hk' : k₀ = k'
      · subst hk'
        simp [pyLookup]
      · have hk2 : ¬ k' = k₀ := fun h => hk' h.symm
        simp [pyLookup, hk', hk2, ih]
    · rw [if_neg hk]
      by_cases hk' : k₀ = k'
      · subst hk'
        have hk2 : ¬ k₀ = k := hk
        simp [pyLookup, hk2, fun h => hk2 (h : k₀ = k)]
      · simp [pyLookup, hk', ih]

theorem pyLookup_dictInsert_self {β : Type} (d : List (String × β)) (k : String)
    (v : β) : pyLookup k (dictInsert d k v) = some v := by
  unfold dictInsert
  split_ifs with hs
  · rw [pyLookup_mapReplace]
    obtain ⟨w, hw⟩ := Option.isSome_iff_exists.mp hs
    simp [hw]
  · have hn : pyLookup k d = none := by
      cases h : pyLookup k d with
      | none => rfl
      | some w => exact absurd (by simp [h]) hs
    rw [pyLookup_append, hn]
    simp [pyLookup]

theorem pyLookup_dictInsert_ne {β : Type} (d : List (String × β)) (k k' : String)
    (v : β) (h : k' ≠ k) : pyLookup k' (dictInsert d k v) = pyLookup k' d := by
  unfold dictInsert
  split_ifs with hs
  · rw [pyLookup_mapReplace]
    cases hd : pyLookup k' d with
    | some w => simp [h]
    | none => simp
  · rw [pyLookup_append]
    cases hd : pyLookup k' d with
    | some w => simp
    | none => simp [pyLookup, Ne.symm h]

theorem pyLookup_eq_none_of_not_mem {β : Type} {d : List (String × β)}
    {k : String} (h : k ∉ keysOf d) : pyLookup k d = none := by
  induction d with
  | nil => rfl
  | cons p rest ih =>
    simp only [keysOf, List.map_cons, List.mem_cons] at h
    push_neg at h
    simp [pyLookup, Ne.symm h.1, ih (by simpa [keysOf] using h.2)]

theorem pyLookup_isSome_iff_mem {β : Type} (d : List (String × β)) (k : String) :
    (pyLookup k d).isSome ↔ k ∈ keysOf d := by
  induction d with
  | nil => simp [pyLookup, keysOf]
  | cons p rest ih =>
    obtain ⟨k', v⟩ := p
    by_cases h : k' = k
    · subst h
      simp [pyLookup, keysOf]
    · have h2 : ¬ k = k' := fun hh => h hh.symm
      simp [pyLookup, keysOf, h, h2, ih]

theorem pyLookup_eq_some_of_mem_nodup {β : Type} {d : List (String × β)}
    {k : String} {v : β} (hd : (keysOf d).Nodup) (h : (k, v) ∈ d) :
    pyLookup k d = some v := by
  induction d with
  | nil => simp at h
  | cons p rest ih =>
    obtain ⟨k', w⟩ := p
    simp only [keysOf, List.map_cons, List.nodup_cons] at hd
    rcases List.mem_cons.mp h with h1 | h2
    · rw [show k' = k from (Prod.mk.injEq .. ▸ h1.symm).1]
      simp [pyLookup, (Prod.mk.injEq .. ▸ h1.symm).2]
    · have hk : k' ≠ k := by
        intro hkk
        subst hkk
        exact hd.1 (by simpa [keysOf] using List.mem_map_of_mem Prod.fst h2)
      simp [pyLookup, hk, ih hd.2 h2]

theorem mem_of_pyLookup_eq_some {β : Type} {d : List (String × β)} {k : String}
    {v : β} (h : pyLookup k d = some v) : (k, v) ∈ d := by
  induction d with
  | nil => simp [pyLookup] at h
  | cons p rest ih =>
    obtain ⟨k', w⟩ := p
    by_cases hk : k' = k
    · subst hk
      simp [pyLookup] at h
      simp [h]
    · simp only [pyLookup, hk, if_false] at h
      exact List.mem_cons_of_mem _ (ih h)

theorem envMapEq_refl {e : List (String × String)}
    (he : (keysOf e).Nodup) : envMapEq e e = true := by
  unfold envMapEq
  rw [Bool.and_self]
  rw [List.all_eq_true]
  intro p hp
  obtain ⟨k, v⟩ := p
  simpa using pyLookup_eq_some_of_mem_nodup he hp

theorem configEq_refl {c : ServerConfig} (he : (keysOf c.env).Nodup) :
    configEq c c = true := by
  simp [configEq, envMapEq_refl he]

/-! ## Facts about the smart-merge loop -/

theorem smartMergeLoop_conflicts (t : Coll) (src : List (String × ServerConfig)) :
    ∀ (m : Coll) (cf : List String),
      (smartMergeLoop t src m cf).2 = cf ++ src.filterMap (conflictOf t) := by
  induction src with
  | nil => intro m cf; simp [smartMergeLoop]
  | cons p rest ih =>
    intro m cf
    obtain ⟨n, c⟩ := p
    simp only [smartMergeLoop]
    cases ht : pyLookup n t with
    | some tc =>
      by_cases hc : configEq c tc
      · simp [hc, ih, List.filterMap_cons, conflictOf, ht]
      · simp [hc, ih, List.filterMap_cons, conflictOf, ht]
    | none => simp [ih, List.filterMap_cons, conflictOf, ht]

theorem smartMergeLoop_merged_target_key (t : Coll) (n : String)
    (tc : ServerConfig) (ht : pyLookup n t = some tc) :
    ∀ (src : List (String × ServerConfig)) (m : Coll) (cf : List String),
      pyLookup n m = some tc →
      pyLookup n (smartMergeLoop t src m cf).1 = some tc := by
  intro src
  induction src with
  | nil => intro m cf hm; simpa [smartMergeLoop] using hm
  | cons p rest ih =>
    intro m cf hm
    obtain ⟨k, c⟩ := p
    simp only [smartMergeLoop]
    cases hk : pyLookup k t with
    | some tc' =>
      by_cases hc : configEq c tc' <;> simp [hc, ih _ _ hm]
    | none =>
      have hne : n ≠ k := by
        intro h
        rw [h, hk] at ht
        exact Option.noConfusion ht
      exact ih _ _ (by rw [pyLookup_dictInsert_ne _ _ _ _ hne]; exact hm)

theorem smartMergeLoop_merged_notin (t : Coll) (n : String) :
    ∀ (src : List (String × ServerConfig)) (m : Coll) (cf : List String),
      n ∉ keysOf src →
      pyLookup n (smartMergeLoop t src m cf).1 = pyLookup n m := by
  intro src
  induction src with
  | nil => intro m cf _; simp [smartMergeLoop]
  | cons p rest ih =>
    intro m cf hn
    obtain ⟨k, c⟩ := p
    simp only [keysOf, List.map_cons, List.mem_cons] at hn
    push_neg at hn
    have hrest : n ∉ keysOf rest := by simpa [keysOf] using hn.2
    simp only [smartMergeLoop]
    cases hk : pyLookup k t with
    | some tc' =>
      by_cases hc : configEq c tc' <;> simp [hc, ih _ _ hrest]
    | none =>
      rw [ih _ _ hrest, pyLookup_dictInsert_ne _ _ _ _ hn.1]

theorem smartMergeLoop_merged_absent (t : Coll) (n : String) (c : ServerConfig)
    (ht : pyLookup n t = none) :
    ∀ (src : List (String × ServerConfig)) (m : Coll) (cf : List String),
      (keysOf src).Nodup → pyLookup n src = some c → pyLookup n m = none →
      pyLookup n (smartMergeLoop t src m cf).1 = some c := by
  intro src
  induction src with
  | nil => intro m cf _ hsrc _; simp [pyLookup] at hsrc
  | cons p rest ih =>
    intro m cf hnd hsrc hm
    obtain ⟨k, c'⟩ := p
    simp only [keysOf, List.map_cons, List.nodup_cons] at hnd
    by_cases hk : k = n
    · subst hk
      have hsrc' : c' = c := by simpa [pyLookup] using hsrc
      rw [hsrc']
      simp only [smartMergeLoop, ht]
      have hrest : k ∉ keysOf rest := by simpa [keysOf] using hnd.1
      rw [smartMergeLoop_merged_notin t k rest _ _ hrest]
      exact pyLookup_dictInsert_self m k c
    · simp only [pyLookup, hk, if_false] at hsrc
      simp only [smartMergeLoop]
      cases hkt : pyLookup k t with
      | some tc' =>
        by_cases hc : configEq c' tc' <;>
          simp [hc, ih _ _ (by simpa [keysOf] using hnd.2) hsrc hm]
      | none =>
        have hne : n ≠ k := fun h => hk h.symm
        exact ih _ _ (by simpa [keysOf] using hnd.2) hsrc
          (by rw [pyLookup_dictInsert_ne _ _ _ _ hne]; exact hm)

theorem smartMerge_keepTarget_eq (s t : Coll) :
    smartMerge s t .keepTarget = (smartMergeBase s t).1 := by
  unfold smartMerge
  by_cases h : (smartMergeBase s t).2.isEmpty <;> simp [h]

theorem smartMerge_review_preserves (s : Coll) (f : String → Bool) (n : String)
    (hf : f n = false) (v : ServerConfig) :
    ∀ (cf : List String) (m : Coll), pyLookup n m = some v →
      pyLookup n
        (cf.foldl (fun m k =>
          if f k then
            match pyLookup k s with
            | some c => dictInsert m k c
            | none => m
          else m) m) = some v := by
  intro cf
  induction cf with
  | nil => intro m hm; simpa using hm
  | cons k rest ih =>
    intro m hm
    simp only [List.foldl_cons]
    by_cases hfk : f k
    · have hne : n ≠ k := by
        intro h
        rw [h] at hf
        rw [hf] at hfk
        exact Bool.noConfusion hfk
      cases hks : pyLookup k s with
      | some c =>
        simp only [hfk, if_true, hks]
        exact ih _ (by rw [pyLookup_dictInsert_ne _ _ _ _ hne]; exact hm)
      | none => simp only [hfk, if_true, hks]; exact ih _ hm
    · simp only [hfk, if_false]
      exact ih _ hm

/-! ## Claim theorems -/

/-- C1: the claim says mode "merge" never changes a name already present in
the target.  Evaluating `SyncEngine.sync_mcp_servers` (src/sync.py) at
source = {"a": {command "x", args ["1"]}} and target = {"a": {command "y"}}
shows the collection handed to the save is {"a": {command "x", args ["1"]}}:
the Python expression `{**target_servers, **source_servers}` overwrites the
target's entry with the source value, contradicting the method's own
docstring ("merge: Add missing servers only") and the V2 implementation of
the same policy (src/sync/sync-manager-v2.py), which keeps the target value
as the second conjunct shows. -/
theorem c1_merge_mode_overwrites_target :
    (sync_mcp_servers (some [("a", ⟨"x", ["1"], [], none⟩)])
        (some [("a", ⟨"y", [], [], none⟩)]) .merge .keepTarget true).written
      = some [("a", ⟨"x", ["1"], [], none⟩)]
    ∧ syncMergeV2 [("a", ⟨"x", ["1"], [], none⟩)] [("a", ⟨"y", [], [], none⟩)]
      = [("a", ⟨"y", [], [], none⟩)]
    ∧ (⟨"x", ["1"], [], none⟩ : ServerConfig) ≠ ⟨"y", [], [], none⟩ := by
  refine ⟨by decide, by decide, by decide⟩

/-- C3: loading a malformed document yields `None` (the `json.load` exception
is caught, never re-raised), and `SyncEngine.sync_mcp_servers` behaves on a
`None` load exactly as on a confirmed-empty collection, on the source side
and on the target side alike, so a corrupt file never aborts the sync with
an exception. -/
theorem c3_parse_failure_is_absent_and_never_aborts :
    load_mcp_config .parseFailure = none
    ∧ (∀ (tl : Option Coll) (mode : SyncMode) (choice : SmartChoice) (saveOk : Bool),
        sync_mcp_servers (load_mcp_config .parseFailure) tl mode choice saveOk
          = sync_mcp_servers (some []) tl mode choice saveOk)
    ∧ (∀ (sl : Option Coll) (mode : SyncMode) (choice : SmartChoice) (saveOk : Bool),
        sync_mcp_servers sl (load_mcp_config .parseFailure) mode choice saveOk
          = sync_mcp_servers sl (some []) mode choice saveOk) := by
  refine ⟨rfl, fun tl mode choice saveOk => rfl, fun sl mode choice saveOk => ?_⟩
  cases sl with
  | none => rfl
  | some s => rfl

/-- C10: a source collection that loads successfully but is empty makes
`SyncEngine.sync_mcp_servers` return failure at the `if not source_servers`
check, before `save_mcp_config` (and hence `create_backup`) is ever invoked
and before anything is written to the target. -/
theorem c10_empty_source_fails_before_backup_and_save :
    load_mcp_config (.parsed ⟨some []⟩) = some []
    ∧ ∀ (tl : Option Coll) (mode : SyncMode) (choice : SmartChoice) (saveOk : Bool),
        sync_mcp_servers (some []) tl mode choice saveOk
          = ⟨false, false, none⟩ := by
  exact ⟨rfl, fun tl mode choice saveOk => rfl⟩

/-- C2 counterexample: `ConfigManager.save_prompt` writes to an existing
prompt file without any preceding backup in the operation, so the claim that
every mutating save operation — prompt saves included — backs up before
writing fails on it. -/
theorem c2_counterexample_prompt_save_has_no_backup :
    backupPrecedesWrites (save_prompt_run true) = false := by decide

/-- C2 amended: only the entry-collection save has the backup-then-write
discipline: `save_mcp_config` on an existing target produces a backup
followed by the write, while `save_prompt` produces a bare write whether or
not the prompt file exists. -/
theorem c2_amended_backup_precedes_entry_saves_only :
    save_mcp_config_run true true = .ok [.backup, .write]
    ∧ backupPrecedesWrites [.backup, .write] = true
    ∧ save_prompt_run true = [.write]
    ∧ save_prompt_run false = [.write] := by
  refine ⟨rfl, by decide, rfl, rfl⟩

/-- C4 counterexample: when the backup copy in `ConfigManager.create_backup`
raises, the exception escapes (there is no handler in `create_backup` or
around its call in `save_mcp_config`), so the save does not proceed —
refuting the claim that a backup failure never blocks the save. -/
theorem c4_counterexample_backup_failure_blocks_save :
    saveProceeded (save_mcp_config_run true false) = false := by decide

/-- C4 amended: a copy error during the backup aborts `save_mcp_config`
with the escaped exception and no write happens; only when the copy
succeeds does the save proceed, backup first. -/
theorem c4_amended_backup_failure_aborts_save :
    save_mcp_config_run true false = .error "copy failed"
    ∧ save_mcp_config_run true true = .ok [.backup, .write]
    ∧ saveProceeded (save_mcp_config_run true true) = true := by
  refine ⟨rfl, rfl, by decide⟩

/-- C6: under the smart policy (SyncEngine._smart_merge), a name is in the
conflict list iff it is bound in both collections with content-unequal
configurations; with the keep-target choice (and with per-conflict review
wherever the answer is not "use source") every name bound in the target
keeps its target value; and every source entry whose name is absent from the
target appears in the merged result with its source value. -/
theorem c6_smart_merge_spec (s t : Coll) (hs : (keysOf s).Nodup) :
    (∀ n, n ∈ (smartMergeBase s t).2 ↔
        ∃ cs ct, pyLookup n s = some cs ∧ pyLookup n t = some ct
          ∧ configEq cs ct = false)
    ∧ (∀ n ct, pyLookup n t = some ct →
        pyLookup n (smartMerge s t .keepTarget) = some ct)
    ∧ (∀ (f : String → Bool) n ct, f n = false → pyLookup n t = some ct →
        pyLookup n (smartMerge s t (.review f)) = some ct)
    ∧ (∀ n c, pyLookup n t = none → pyLookup n s = some c →
        pyLookup n (smartMerge s t .keepTarget) = some c) := by
  have hbase1 : ∀ n ct, pyLookup n t = some ct →
      pyLookup n (smartMergeBase s t).1 = some ct := by
    intro n ct ht
    exact smartMergeLoop_merged_target_key t n ct ht s t [] ht
  refine ⟨?_, ?_, ?_, ?_⟩
  · intro n
    rw [show (smartMergeBase s t).2 = s.filterMap (conflictOf t) by
      simpa using smartMergeLoop_conflicts t s t []]
    rw [List.mem_filterMap]
    constructor
    · rintro ⟨⟨k, cs⟩, hmem, hconf⟩
      cases ht : pyLookup k t with
      | none => simp [conflictOf, ht] at hconf
      | some tc =>
        simp only [conflictOf, ht] at hconf
        by_cases hc : configEq cs tc = true
        · rw [if_pos hc] at hconf; exact Option.noConfusion hconf
        · rw [if_neg hc] at hconf
          have hk : k = n := by simpa using hconf
          subst hk
          exact ⟨cs, tc, pyLookup_eq_some_of_mem_nodup hs hmem, ht,
            Bool.not_eq_true _ ▸ hc⟩
    · rintro ⟨cs, ct, hsn, htn, hne⟩
      refine ⟨(n, cs), mem_of_pyLookup_eq_some hsn, ?_⟩
      unfold conflictOf
      simp [htn, hne]
  · intro n ct ht
    rw [smartMerge_keepTarget_eq]
    exact hbase1 n ct ht
  · intro f n ct hf ht
    unfold smartMerge
    by_cases hemp : (smartMergeBase s t).2.isEmpty
    · simp only [hemp, if_true]
      exact hbase1 n ct ht
    · simp only [hemp, if_false]
      exact smartMerge_review_preserves s f n hf ct _ _ (hbase1 n ct ht)
  · intro n c ht hsn
    rw [smartMerge_keepTarget_eq]
    exact smartMergeLoop_merged_absent t n c ht s t [] hs hsn ht

/-- The list branch of the expansion leaves plain strings unchanged. -/
theorem expandList_strs (env : String → Option String) (ss : List String) :
    expandList env (ss.map .str) = ss.map .str := by
  induction ss with
  | nil => rfl
  | cons s rest ih => simp [expandList, expandEnvVars, ih]

/-- C7 counterexample: with HOME set in the environment, expansion leaves a
placeholder inside a list untouched and a placeholder embedded in a longer
string untouched, refuting the claim that every placeholder anywhere in the
document — including strings inside lists and placeholders embedded within
longer strings — is substituted. -/
theorem c7_counterexample_expansion_not_everywhere :
    (fun v => if v = "HOME" then some "/home/u" else none) "HOME" = some "/home/u"
    ∧ expandEnvVars (fun v => if v = "HOME" then some "/home/u" else none)
        (.dict [("a", .list [.str "$\x7bHOME\x7d"]),
                ("b", .str "pre$\x7bHOME\x7dpost")])
      = .dict [("a", .list [.str "$\x7bHOME\x7d"]),
               ("b", .str "pre$\x7bHOME\x7dpost")]
    ∧ ("$\x7bHOME\x7d" : String) ≠ "/home/u" := by
  refine ⟨rfl, rfl, by decide⟩

/-- C7 amended: `_expand_env_vars` substitutes exactly the mapping values
that consist of a single whole-string placeholder — set variables replace
the value, unset variables leave it literal without failing — while strings
inside lists (and any string that is not exactly a placeholder, such as one
with embedded text) are left unchanged. -/
theorem c7_amended_expansion_only_whole_dict_values
    (env : String → Option String) (k s v : String) (ss : List String) :
    (isWholePlaceholder s = true → env (placeholderVar s) = some v →
      expandEnvVars env (.dict [(k, .str s)]) = .dict [(k, .str v)])
    ∧ (env (placeholderVar s) = none →
      expandEnvVars env (.dict [(k, .str s)]) = .dict [(k, .str s)])
    ∧ (isWholePlaceholder s = false →
      expandEnvVars env (.dict [(k, .str s)]) = .dict [(k, .str s)])
    ∧ expandEnvVars env (.list (ss.map .str)) = .list (ss.map .str) := by
  refine ⟨?_, ?_, ?_, ?_⟩
  · intro hw he
    simp [expandEnvVars, expandDict, hw, he]
  · intro he
    by_cases hw : isWholePlaceholder s <;>
      simp [expandEnvVars, expandDict, hw, he]
  · intro hw
    simp [expandEnvVars, expandDict, hw]
  · simp [expandEnvVars, expandList_strs]

/-- C7 amended witness: a whole-string placeholder with the variable set is
substituted; one naming an unset variable stays literal. -/
theorem c7_amended_witness :
    expandEnvVars (fun v => if v = "HOME" then some "/h" else none)
      (YamlVal.dict [("key", .str "$\x7bHOME\x7d")])
      = .dict [("key", .str "/h")]
    ∧ expandEnvVars (fun v => if v = "HOME" then some "/h" else none)
      (YamlVal.dict [("key", .str "$\x7bMISSING\x7d")])
      = .dict [("key", .str "$\x7bMISSING\x7d")] := by
  have h1 := c7_amended_expansion_only_whole_dict_values
    (fun v => if v = "HOME" then some "/h" else none) "key" "$\x7bHOME\x7d" "/h" []
  have h2 := c7_amended_expansion_only_whole_dict_values
    (fun v => if v = "HOME" then some "/h" else none) "key" "$\x7bMISSING\x7d" "/h" []
  exact ⟨h1.1 (by decide) (by decide), h2.2.1 (by decide)⟩

/-! ## Facts about duplicate detection -/

theorem argsSetEq_refl (a : List String) : argsSetEq a a = true := by
  unfold argsSetEq
  rw [Bool.and_self, List.all_eq_true]
  intro x hx
  simpa using hx

theorem identEq_refl {c : ServerConfig} (he : (keysOf c.env).Nodup) :
    identEq c c = true := by
  simp [identEq, argsSetEq_refl, envMapEq_refl he]

theorem firstIdentMatch_isSome_iff (cfg : ServerConfig) (d : Coll) :
    (firstIdentMatch cfg d).isSome ↔ ∃ p ∈ d, identEq cfg p.2 = true := by
  induction d with
  | nil => simp [firstIdentMatch]
  | cons p rest ih =>
    obtain ⟨n, c⟩ := p
    by_cases h : identEq cfg c
    · simp only [firstIdentMatch, h, if_true, Option.isSome_some, true_iff]
      exact ⟨(n, c), List.mem_cons_self _ _, h⟩
    · rw [show firstIdentMatch cfg ((n, c) :: rest) = firstIdentMatch cfg rest by
        simp [firstIdentMatch, h]]
      rw [ih]
      constructor
      · rintro ⟨p, hp, hid⟩
        exact ⟨p, List.mem_cons_of_mem _ hp, hid⟩
      · rintro ⟨p, hp, hid⟩
        rcases List.mem_cons.mp hp with h1 | hp2
        · subst h1
          exact absurd hid (by simpa using h)
        · exact ⟨p, hp2, hid⟩

/-- C8 counterexample: for the identity-equal entries "x" (existing) and
"y" (incoming) whose shared arguments contain "-m", the save schedules "x"
for removal and then skips adding "y" (the unsupported-flag check in
`_save_claude_code_config`), so zero entries survive — refuting "of two
identity-equal entries with different names, only one survives the
save". -/
theorem c8_counterexample_m_flag_removes_both :
    identEq ⟨"cmd", ["-m"], [], none⟩ ⟨"cmd", ["-m"], [], none⟩ = true
    ∧ ("x" : String) ≠ "y"
    ∧ find_duplicates [("x", ⟨"cmd", ["-m"], [], none⟩)]
        [("y", ⟨"cmd", ["-m"], [], none⟩)] = ["x"]
    ∧ save_claude_code_names [("x", ⟨"cmd", ["-m"], [], none⟩)]
        [("y", ⟨"cmd", ["-m"], [], none⟩)] = [] := by
  refine ⟨by decide, by decide, by decide, by decide⟩

/-- C8 amended: a new entry is detected as a duplicate of an existing entry
iff the name is already bound or the (command, argument-set, environment)
identity matches some existing entry; of two identity-equal entries with
different names (one existing, one incoming) the existing one is scheduled
for removal, and at most one survives the save: the incoming one when its
arguments do not contain the unsupported "-m" flag, none when they do (the
add is skipped after the removal). -/
theorem c8_amended_duplicate_identity (existing : Coll) (n : String)
    (cfg : ServerConfig) (n1 n2 : String) (c : ServerConfig) (hne : n1 ≠ n2)
    (henv : (keysOf c.env).Nodup) :
    ((dupOf existing (n, cfg)).isSome ↔
      (pyLookup n existing).isSome ∨ ∃ p ∈ existing, identEq cfg p.2 = true)
    ∧ find_duplicates [(n1, c)] [(n2, c)] = [n1]
    ∧ save_claude_code_names [(n1, c)] [(n2, c)]
        = (if c.args.contains "-m" then [] else [n2]) := by
  have hl : pyLookup n2 [(n1, c)] = none := by simp [pyLookup, hne]
  have h2 : find_duplicates [(n1, c)] [(n2, c)] = [n1] := by
    simp [find_duplicates, dupOf, hl, firstIdentMatch, identEq_refl henv]
  refine ⟨?_, h2, ?_⟩
  · unfold dupOf
    by_cases h : (pyLookup n existing).isSome
    · simp [h]
    · simp [h, firstIdentMatch_isSome_iff]
  · unfold save_claude_code_names
    rw [h2]
    have hcont : ([n1].contains n2) = false := by
      simp [List.contains, hne, Ne.symm hne]
    have hsei : server_exists_in_target n2 c [(n1, c)] [n1] = false := by
      simp [server_exists_in_target, hcont, hl]
    cases hmc : c.args.contains "-m" with
    | true =>
      have hm' : "-m" ∈ c.args := by simpa using hmc
      simp [hsei, hmc, hm', keysOf]
    | false =>
      have hm' : "-m" ∉ c.args := by simpa using hmc
      simp [hsei, hmc, hm', keysOf]

/-- C8 amended witness: without the "-m" flag only the incoming "y"
survives; with it neither does; the duplicate-detection test holds at a
concrete collection. -/
theorem c8_amended_witness :
    save_claude_code_names [("x", ⟨"cmd", ["p", "q"], [("K", "v")], none⟩)]
        [("y", ⟨"cmd", ["p", "q"], [("K", "v")], none⟩)] = ["y"]
    ∧ save_claude_code_names [("x", ⟨"run", ["-m"], [], none⟩)]
        [("y", ⟨"run", ["-m"], [], none⟩)] = []
    ∧ (dupOf [("x", ⟨"cmd", ["p", "q"], [("K", "v")], none⟩)]
        ("y", ⟨"cmd", ["q", "p"], [("K", "v")], none⟩)).isSome := by
  have h1 := c8_amended_duplicate_identity
    [("x", ⟨"cmd", ["p", "q"], [("K", "v")], none⟩)] "y"
    ⟨"cmd", ["q", "p"], [("K", "v")], none⟩
    "x" "y" ⟨"cmd", ["p", "q"], [("K", "v")], none⟩
    (by decide) (by decide)
  have h2 := c8_amended_duplicate_identity
    [("x", ⟨"run", ["-m"], [], none⟩)] "x"
    ⟨"run", ["-m"], [], none⟩
    "x" "y" ⟨"run", ["-m"], [], none⟩
    (by decide) (by decide)
  refine ⟨?_, ?_, ?_⟩
  · rw [h1.2.2]
    decide
  · rw [h2.2.2]
    decide
  · exact (h1.1).mpr (Or.inr ⟨("x", ⟨"cmd", ["p", "q"], [("K", "v")], none⟩),
      by decide, by decide⟩)

/-- C6 witness: the spec's own scenario — source {"a": cfgA}, target
{"a": cfgB} with differing content yields the single conflict "a", and with
no resolution choosing the source the merged value at "a" is the target's;
a fresh source name "b" lands in the merged result with its source value. -/
theorem c6_smart_merge_witness :
    ("a" ∈ (smartMergeBase
        [("a", ⟨"x", ["1"], [], none⟩), ("b", ⟨"z", [], [], none⟩)]
        [("a", ⟨"y", [], [], none⟩)]).2)
    ∧ pyLookup "a" (smartMerge
        [("a", ⟨"x", ["1"], [], none⟩), ("b", ⟨"z", [], [], none⟩)]
        [("a", ⟨"y", [], [], none⟩)] .keepTarget) = some ⟨"y", [], [], none⟩
    ∧ pyLookup "b" (smartMerge
        [("a", ⟨"x", ["1"], [], none⟩), ("b", ⟨"z", [], [], none⟩)]
        [("a", ⟨"y", [], [], none⟩)] .keepTarget) = some ⟨"z", [], [], none⟩ := by
  have h := c6_smart_merge_spec
    [("a", ⟨"x", ["1"], [], none⟩), ("b", ⟨"z", [], [], none⟩)]
    [("a", ⟨"y", [], [], none⟩)] (by decide)
  refine ⟨?_, ?_, ?_⟩
  · exact (h.1 "a").mpr ⟨⟨"x", ["1"], [], none⟩, ⟨"y", [], [], none⟩,
      by decide, by decide, by decide⟩
  · exact h.2.1 "a" ⟨"y", [], [], none⟩ (by decide)
  · exact h.2.2.2 "b" ⟨"z", [], [], none⟩ (by decide) (by decide)

/-! ## Facts about argument cleaning -/

theorem strReplaceFuel_of_not_occurs (pat rep : List Char) :
    ∀ (fuel : Nat) (s : List Char), s.length ≤ fuel →
      occursIn pat s = false → strReplaceFuel pat rep fuel s = s := by
  intro fuel
  induction fuel with
  | zero => intro s _ _; rfl
  | succ n ih =>
    intro s hs hocc
    cases s with
    | nil => rfl
    | cons c rest =>
      simp only [occursIn, Bool.or_eq_false_iff] at hocc
      rw [show strReplaceFuel pat rep (n + 1) (c :: rest)
          = c :: strReplaceFuel pat rep n rest by
        simp only [strReplaceFuel]
        rw [if_neg]
        rintro ⟨-, hp⟩
        rw [hocc.1] at hp
        exact Bool.noConfusion hp]
      rw [ih rest (by simpa [Nat.succ_le_succ_iff] using hs) hocc.2]

theorem strReplace_of_not_occurs (pat rep : List Char) (s : List Char)
    (hocc : occursIn pat s = false) : strReplace pat rep s = s :=
  strReplaceFuel_of_not_occurs pat rep s.length s (Nat.le_refl _) hocc

theorem splitWSAux_nonws (t : List Char)
    (hws : ∀ ch ∈ t, ch.isWhitespace = false) :
    ∀ (cur r : List Char), splitWSAux cur (t ++ r) = splitWSAux (t.reverse ++ cur) r := by
  induction t with
  | nil => intro cur r; simp
  | cons c t' ih =>
    intro cur r
    have hc : c.isWhitespace = false := hws c (by simp)
    have ih' := ih (fun ch h => hws ch (by simp [h])) (c :: cur) r
    simp only [List.cons_append, splitWSAux, hc, Bool.false_eq_true, if_false]
    rw [show (t'.append r) = t' ++ r from rfl, ih']
    simp

theorem splitWS_joinSpace (args : List (List Char))
    (hne : ∀ t ∈ args, t ≠ [])
    (hws : ∀ t ∈ args, ∀ ch ∈ t, ch.isWhitespace = false) :
    splitWS (joinSpace args) = args := by
  induction args with
  | nil => rfl
  | cons t rest ih =>
    have ht : t ≠ [] := hne t (by simp)
    have htws : ∀ ch ∈ t, ch.isWhitespace = false := hws t (by simp)
    cases rest with
    | nil =>
      show splitWSAux [] (joinSpace [t]) = [t]
      rw [show joinSpace [t] = t from rfl, show (t : List Char) = t ++ [] by simp,
        splitWSAux_nonws t htws [] []]
      simp [splitWSAux, List.isEmpty_iff, ht]
    | cons t2 rest2 =>
      show splitWSAux [] (joinSpace (t :: t2 :: rest2)) = t :: t2 :: rest2
      rw [show joinSpace (t :: t2 :: rest2) = t ++ ' ' :: joinSpace (t2 :: rest2)
          from rfl]
      rw [splitWSAux_nonws t htws [] (' ' :: joinSpace (t2 :: rest2))]
      have hrev : (t.reverse ++ []).isEmpty = false := by
        simp [List.isEmpty_iff, ht]
      simp only [splitWSAux, Char.isWhitespace, hrev]
      rw [if_pos (by decide)]
      simp only [Bool.false_eq_true, if_false]
      have ihr := ih (fun u hu => hne u (by simp [hu]))
        (fun u hu => hws u (by simp [hu]))
      simp only [splitWS] at ihr
      simp [ihr]

theorem joinSpace_ne_nil (t : List Char) (rest : List (List Char))
    (ht : t ≠ []) : joinSpace (t :: rest) ≠ [] := by
  cases rest with
  | nil => simpa [joinSpace] using ht
  | cons t2 rest2 =>
    show t ++ ' ' :: joinSpace (t2 :: rest2) ≠ []
    simp

/-- C9 counterexample: the argument "--yes" is not a bare "-y" and the list
contains no "--with fastmcp" sequence, yet `_clean_args` rewrites it to
"-es": the replacement is substring-based on the space-joined string, so
arguments other than the known-bad flags are not left unchanged. -/
theorem c9_counterexample_clean_args_mangles_other_args :
    ("-y".toList ∉ ["--yes".toList])
    ∧ occursIn ("--with fastmcp".toList) (joinSpace ["--yes".toList]) = false
    ∧ clean_args ["--yes".toList] = ["-es".toList]
    ∧ ["-es".toList] ≠ (["--yes".toList] : List (List Char)) := by
  refine ⟨by decide, by decide, by decide, by decide⟩

/-- C9 amended: `_clean_args` removes every occurrence of the substrings
"-y" and "--with fastmcp" from the space-joined argument string and
re-splits on whitespace; a list of nonempty whitespace-free arguments whose
join contains neither substring is returned unchanged (arguments merely
containing "-y", such as "--yes", are mangled, as the counterexample
shows). -/
theorem c9_amended_clean_args_substring_semantics (args : List (List Char))
    (hne : ∀ t ∈ args, t ≠ [])
    (hws : ∀ t ∈ args, ∀ ch ∈ t, ch.isWhitespace = false)
    (h1 : occursIn ("-y".toList) (joinSpace args) = false)
    (h2 : occursIn ("--with fastmcp".toList) (joinSpace args) = false) :
    clean_args args = args := by
  cases hargs : args with
  | nil => rfl
  | cons t rest =>
    subst hargs
    have hA : strReplace ("-y".toList) [] (joinSpace (t :: rest))
        = joinSpace (t :: rest) := strReplace_of_not_occurs _ _ _ h1
    have hB : strReplace ("--with fastmcp".toList) [] (joinSpace (t :: rest))
        = joinSpace (t :: rest) := strReplace_of_not_occurs _ _ _ h2
    have hC : splitWS (joinSpace (t :: rest)) = t :: rest :=
      splitWS_joinSpace _ hne hws
    have hJ : joinSpace (t :: rest) ≠ [] := joinSpace_ne_nil t rest (hne t (by simp))
    unfold clean_args
    rw [if_neg (by simp)]
    simp only [hA, hB, hC]
    rw [if_neg (by simpa [List.isEmpty_iff] using hJ)]

/-- C9 amended witness: an ordinary argument list is unchanged by the
cleaning. -/
theorem c9_amended_witness :
    clean_args ["npx".toList, "server".toList]
      = ["npx".toList, "server".toList] := by
  exact c9_amended_clean_args_substring_semantics
    ["npx".toList, "server".toList] (by decide) (by decide) (by decide) (by decide)

/-! ## Facts about the backup store -/

theorem countMatching_cleanup_le (appId : String) (files : List BackupFile) :
    countMatching appId (cleanup_old_backups appId files)
      ≤ MAX_VERSIONS_PER_APP := by
  unfold countMatching cleanup_old_backups
  simp only []
  set M := files.filter (backupMatches appId) with hM
  set T := (M.mergeSort mtimeDesc).drop MAX_VERSIONS_PER_APP with hT
  rw [List.filter_comm]
  rw [← hM]
  have hperm : (M.filter (fun f => decide (f ∉ T))).Perm
      ((M.mergeSort mtimeDesc).filter (fun f => decide (f ∉ T))) :=
    ((List.mergeSort_perm M mtimeDesc).symm).filter _
  rw [hperm.length_eq]
  conv_lhs =>
    rw [show M.mergeSort mtimeDesc
      = (M.mergeSort mtimeDesc).take MAX_VERSIONS_PER_APP
        ++ (M.mergeSort mtimeDesc).drop MAX_VERSIONS_PER_APP from
      (List.take_append_drop _ _).symm]
  rw [List.filter_append]
  have h2 : ((M.mergeSort mtimeDesc).drop MAX_VERSIONS_PER_APP).filter
      (fun f => decide (f ∉ T)) = [] := by
    rw [List.filter_eq_nil_iff]
    intro a ha
    have haT : a ∈ T := hT ▸ ha
    simp [haT]
  rw [h2, List.append_nil]
  exact le_trans (List.length_filter_le _ _) (List.length_take_le _ _)

theorem countMatching_create_backup_le (appId ext : String) (now : Nat)
    (files : List BackupFile) :
    countMatching appId (create_backup_fs appId ext now files)
      ≤ MAX_VERSIONS_PER_APP := by
  unfold create_backup_fs
  exact countMatching_cleanup_le appId _

theorem mergeSort_desc_of_ascending (L : List BackupFile)
    (hasc : L.Pairwise (fun a b => a.mtime < b.mtime)) :
    L.mergeSort mtimeDesc = L.reverse := by
  have hperm : (L.mergeSort mtimeDesc).Perm L := List.mergeSort_perm L mtimeDesc
  have hsorted : List.Pairwise (fun a b : BackupFile => mtimeDesc a b = true)
      (L.mergeSort mtimeDesc) :=
    List.sorted_mergeSort
      (fun a b c hab hbc => by
        simp only [mtimeDesc, decide_eq_true_eq] at hab hbc ⊢
        omega)
      (fun a b => by
        simp only [mtimeDesc, Bool.or_eq_true, decide_eq_true_eq]
        omega)
      L
  have hmapnd : (L.map BackupFile.mtime).Nodup := by
    rw [List.Nodup, List.pairwise_map]
    exact hasc.imp (fun h => Nat.ne_of_lt h)
  have hmsnd : ((L.mergeSort mtimeDesc).map BackupFile.mtime).Nodup :=
    ((hperm.map BackupFile.mtime).symm).nodup hmapnd
  have hdistinct : List.Pairwise
      (fun a b : BackupFile => a.mtime ≠ b.mtime) (L.mergeSort mtimeDesc) := by
    rw [List.Nodup, List.pairwise_map] at hmsnd
    exact hmsnd
  have hstrict : List.Pairwise
      (fun a b : BackupFile => b.mtime < a.mtime) (L.mergeSort mtimeDesc) :=
    (hsorted.and hdistinct).imp (fun h => by
      obtain ⟨h1, h2⟩ := h
      simp only [mtimeDesc, decide_eq_true_eq] at h1
      omega)
  have hrev : List.Pairwise
      (fun a b : BackupFile => b.mtime < a.mtime) L.reverse :=
    List.pairwise_reverse.mpr hasc
  haveI : IsAntisymm BackupFile (fun a b => b.mtime < a.mtime) :=
    ⟨fun a b h1 h2 => absurd (Nat.lt_trans h1 h2) (Nat.lt_irrefl _)⟩
  exact List.eq_of_perm_of_sorted (hperm.trans (List.reverse_perm L).symm)
    hstrict hrev

theorem filter_keep_newest (L : List BackupFile) (hnd : L.Nodup) :
    L.filter (fun f => decide (f ∉ L.reverse.drop MAX_VERSIONS_PER_APP))
      = L.drop (L.length - MAX_VERSIONS_PER_APP) := by
  set T := L.reverse.drop MAX_VERSIONS_PER_APP with hT
  set k := L.length - MAX_VERSIONS_PER_APP with hk
  have hmem : ∀ x : BackupFile, x ∈ T ↔ x ∈ L.take k := by
    intro x
    rw [hT, List.drop_reverse, List.mem_reverse, hk]
  conv_lhs =>
    rw [show L = L.take k ++ L.drop k from (List.take_append_drop k L).symm]
  rw [List.filter_append]
  have h1 : (L.take k).filter (fun f => decide (f ∉ T)) = [] := by
    rw [List.filter_eq_nil_iff]
    intro a ha
    have : a ∈ T := (hmem a).mpr ha
    simp [this]
  have h2 : (L.drop k).filter (fun f => decide (f ∉ T)) = L.drop k := by
    rw [List.filter_eq_self]
    intro a ha
    have hnotin : a ∉ L.take k := by
      intro hin
      exact (List.disjoint_take_drop hnd (le_refl k)) hin ha
    have : a ∉ T := fun hc => hnotin ((hmem a).mp hc)
    simp [this]
  rw [h1, h2, List.nil_append]

theorem create_backup_fs_step (appId ext : String) (now : Nat) (S : List Nat)
    (hasc : S.Pairwise (· < ·)) (hlt : ∀ x ∈ S, x < now) :
    create_backup_fs appId ext now (S.map (mkBackup appId ext)) =
      ((S ++ [now]).drop ((S ++ [now]).length - MAX_VERSIONS_PER_APP)).map
        (mkBackup appId ext) := by
  have hany : (S.map (mkBackup appId ext)).any
      (fun g => g.owner == appId && g.stamp == now && g.ext == ext) = false := by
    rw [List.any_eq_false]
    intro g hg
    obtain ⟨s, hs, rfl⟩ := List.mem_map.mp hg
    have hsn : s ≠ now := Nat.ne_of_lt (hlt s hs)
    simp [mkBackup, hsn]
  have hLdef : S.map (mkBackup appId ext) ++ [mkBackup appId ext now]
      = (S ++ [now]).map (mkBackup appId ext) := by
    simp [List.map_append]
  have h0 : create_backup_fs appId ext now (S.map (mkBackup appId ext))
      = cleanup_old_backups appId ((S ++ [now]).map (mkBackup appId ext)) := by
    simp only [create_backup_fs, hany, Bool.false_eq_true, if_false]
    rw [show (⟨appId, now, ext, now⟩ : BackupFile) = mkBackup appId ext now from rfl,
      hLdef]
  set L := (S ++ [now]).map (mkBackup appId ext) with hL
  have hSnow : (S ++ [now]).Pairwise (· < ·) :=
    List.pairwise_append.mpr ⟨hasc, List.pairwise_singleton _ _,
      fun a ha b hb => by
        rw [List.mem_singleton] at hb
        subst hb
        exact hlt a ha⟩
  have hLasc : List.Pairwise (fun a b : BackupFile => a.mtime < b.mtime) L := by
    rw [hL, List.pairwise_map]
    exact hSnow.imp (fun h => by simpa [mkBackup] using h)
  have hLnd : L.Nodup :=
    hLasc.imp (fun h heq => absurd (heq ▸ h) (Nat.lt_irrefl _))
  have hfilter : L.filter (backupMatches appId) = L := by
    rw [List.filter_eq_self]
    intro a ha
    rw [hL] at ha
    obtain ⟨s, hs, rfl⟩ := List.mem_map.mp ha
    simp [backupMatches, mkBackup]
  have hms : L.mergeSort mtimeDesc = L.reverse :=
    mergeSort_desc_of_ascending L hLasc
  rw [h0]
  unfold cleanup_old_backups
  simp only [hfilter, hms]
  rw [filter_keep_newest L hLnd]
  rw [hL, ← List.map_drop, List.length_map]

theorem backupSeq_state (appId ext : String) (stamps : List Nat)
    (hmono : stamps.Pairwise (· < ·)) :
    backupSeq appId ext stamps [] =
      ((stamps.drop (stamps.length - MAX_VERSIONS_PER_APP)).map
        (mkBackup appId ext)) := by
  induction stamps using List.reverseRecOn with
  | nil => rfl
  | append_singleton init s ih =>
    rw [List.pairwise_append] at hmono
    obtain ⟨hinit, -, hall⟩ := hmono
    have hall' : ∀ x ∈ init, x < s := fun x hx =>
      hall x hx s (List.mem_singleton_self s)
    have hseq : backupSeq appId ext (init ++ [s]) []
        = create_backup_fs appId ext s (backupSeq appId ext init []) := by
      unfold backupSeq
      rw [List.foldl_append]
      rfl
    rw [hseq, ih hinit]
    have hM10 : MAX_VERSIONS_PER_APP = 10 := rfl
    have hSasc : (init.drop (init.length - MAX_VERSIONS_PER_APP)).Pairwise (· < ·) :=
      hinit.sublist (List.drop_sublist _ _)
    have hSlt : ∀ x ∈ init.drop (init.length - MAX_VERSIONS_PER_APP), x < s :=
      fun x hx => hall' x (List.mem_of_mem_drop hx)
    rw [create_backup_fs_step appId ext s _ hSasc hSlt]
    congr 1
    rcases le_or_lt init.length MAX_VERSIONS_PER_APP with hle | hgt
    · rw [Nat.sub_eq_zero_of_le hle, List.drop_zero]
    · have hSlen : (init.drop (init.length - MAX_VERSIONS_PER_APP)).length
          = MAX_VERSIONS_PER_APP := by
        rw [List.length_drop]
        omega
      have hL1 : (init.drop (init.length - MAX_VERSIONS_PER_APP) ++ [s]).length
          - MAX_VERSIONS_PER_APP = 1 := by
        rw [List.length_append, hSlen, List.length_singleton]
        omega
      have hL2 : (init ++ [s]).length - MAX_VERSIONS_PER_APP
          = init.length + 1 - MAX_VERSIONS_PER_APP := by
        rw [List.length_append, List.length_singleton]
      have hdropS : (init.drop (init.length - MAX_VERSIONS_PER_APP) ++ [s]).drop 1
          = (init.drop (init.length - MAX_VERSIONS_PER_APP)).drop 1 ++ [s] :=
        List.drop_append_of_le_length (by rw [hSlen]; omega)
      have hdropI : (init ++ [s]).drop (init.length + 1 - MAX_VERSIONS_PER_APP)
          = init.drop (init.length + 1 - MAX_VERSIONS_PER_APP) ++ [s] :=
        List.drop_append_of_le_length (by omega)
      have hidx : init.length - MAX_VERSIONS_PER_APP + 1
          = init.length + 1 - MAX_VERSIONS_PER_APP := by omega
      rw [hL1, hL2, hdropS, hdropI, List.drop_drop, hidx]

/-- C5: after any backup-plus-retention step at most ten backups matching
the app id remain in the versions directory; and eleven sequential backups
for one app id at strictly increasing timestamps, starting from an empty
directory, leave exactly the ten most recent — the oldest is evicted. -/
theorem c5_backup_retention (appId ext : String) (now : Nat)
    (files : List BackupFile) (stamps : List Nat)
    (hmono : stamps.Pairwise (· < ·))
    (hlen : stamps.length = MAX_VERSIONS_PER_APP + 1) :
    countMatching appId (create_backup_fs appId ext now files)
      ≤ MAX_VERSIONS_PER_APP
    ∧ backupSeq appId ext stamps []
      = ((stamps.drop 1).map (mkBackup appId ext))
    ∧ countMatching appId (backupSeq appId ext stamps [])
      = MAX_VERSIONS_PER_APP := by
  have hdrop1 : backupSeq appId ext stamps []
      = ((stamps.drop 1).map (mkBackup appId ext)) := by
    rw [backupSeq_state appId ext stamps hmono, hlen, Nat.add_sub_cancel_left]
  refine ⟨countMatching_create_backup_le appId ext now files, hdrop1, ?_⟩
  rw [hdrop1]
  unfold countMatching
  have hall : ∀ a ∈ (stamps.drop 1).map (mkBackup appId ext),
      backupMatches appId a = true := by
    intro a ha
    obtain ⟨x, hx, rfl⟩ := List.mem_map.mp ha
    simp [backupMatches, mkBackup]
  rw [List.filter_eq_self.mpr hall, List.length_map, List.length_drop, hlen,
    Nat.add_sub_cancel]

/-- C5 witness: eleven sequential backups for app id "cline" at timestamps
0..10 leave exactly the ten newest files, the stamp-0 backup evicted. -/
theorem c5_backup_retention_witness :
    countMatching "cline" (create_backup_fs "cline" ".json" 0 [])
      ≤ MAX_VERSIONS_PER_APP
    ∧ backupSeq "cline" ".json" [0, 1, 2, 3, 4, 5, 6, 7, 8, 9, 10] []
      = (([1, 2, 3, 4, 5, 6, 7, 8, 9, 10] : List Nat).map (mkBackup "cline" ".json"))
    ∧ countMatching "cline"
        (backupSeq "cline" ".json" [0, 1, 2, 3, 4, 5, 6, 7, 8, 9, 10] [])
      = MAX_VERSIONS_PER_APP := by
  have h := c5_backup_retention "cline" ".json" 0 []
    [0, 1, 2, 3, 4, 5, 6, 7, 8, 9, 10] (by decide) (by decide)
  exact ⟨h.1, h.2.1, h.2.2⟩

end Truffaldino
